import Mathlib

/-!
Verification development for the Mused piano-roll preprocessing pipeline
(`mused/Midi.py`).  The Python module is shallowly embedded here: piano
rolls are lists of boolean rows (axes: time step, pitch), tracks carry a
name, a program number, a drum flag and a roll, and the `Midi` class is a
record whose methods become Lean functions.  Python slicing, `range`, and
`np.roll` are modelled explicitly.
-/

namespace Mused

/-- Fixed centre pitch of the symmetric cut window (`MIDDLE_C` in Midi.py). -/
def MIDDLE_C : Nat := 64

/-- Full MIDI pitch width (`MIDI_INPUTS` in Midi.py). -/
def MIDI_INPUTS : Nat := 128

/-- Curated name list for drum tracks (`DRUM_NAMES`). -/
def DRUM_NAMES : List String := ["drums", "congos", "cymbals", "hits"]

/-- Curated name list for piano tracks (`PIANO_NAMES`). -/
def PIANO_NAMES : List String := ["piano", "accoustic piano", "guitar", "flutevibes"]

/-- Curated name list for bass tracks (`BASS_NAMES`). -/
def BASS_NAMES : List String := ["bass", "fretless bass"]

/-- Curated name list for other tracks (`OTHER_NAMES`). -/
def OTHER_NAMES : List String := ["trumpet", "alto", "tenor", "trombone", "he harmonica", "she flute"]

/-- Python substring containment `needle in hay`, on lists of characters. -/
def subStr (needle : List Char) : List Char → Bool
  | [] => needle.isEmpty
  | c :: t => needle.isPrefixOf (c :: t) || subStr needle t

/-- Python `str.lower`, characterwise (the names handled here are ASCII). -/
def pyLower (text : String) : String :=
  String.mk (text.toList.map Char.toLower)

/-- Models `remove_non_ascii`: lowercase the text and keep only letters and
spaces.  (Python's `str.isalpha` is modelled by `Char.isAlpha`; the name
lists and the tracks considered here are plain ASCII.) -/
def remove_non_ascii (text : String) : String :=
  String.mk ((pyLower text).toList.filter (fun c => c.isAlpha || c = ' '))

/-- A pypianoroll track as the classifier sees it: name, program number,
drum flag, and its boolean piano roll (rows are time steps, entries are
pitches). -/
structure Track where
  name : String
  program : Nat
  is_drum : Bool
  pianoroll : List (List Bool)
deriving DecidableEq

/-- Does any name of the list occur as a substring of the cleaned name? -/
def nameHit (names : List String) (t : List Char) : Bool :=
  names.any (fun n => subStr n.toList t)

/-- Models `is_drum` (Midi.py lines 15-20): a curated drum name in the
cleaned track name, else the track's drum flag. -/
def is_drum (track : Track) : Bool :=
  let t := (remove_non_ascii (pyLower track.name)).toList
  nameHit DRUM_NAMES t || track.is_drum

/-- Models `is_piano` (lines 23-30): program below 32, else a curated piano
name in the cleaned track name. -/
def is_piano (track : Track) : Bool :=
  let t := (remove_non_ascii (pyLower track.name)).toList
  decide (track.program < 32) || nameHit PIANO_NAMES t

/-- Models `is_bass` (lines 33-38): a curated bass name in the cleaned
track name, else program strictly between 31 and 40. -/
def is_bass (track : Track) : Bool :=
  let t := (remove_non_ascii (pyLower track.name)).toList
  nameHit BASS_NAMES t || (decide (31 < track.program) && decide (track.program < 40))

/-- Models `is_other` (lines 41-46): a curated other name in the cleaned
track name, else program above 39. -/
def is_other (track : Track) : Bool :=
  let t := (remove_non_ascii (pyLower track.name)).toList
  nameHit OTHER_NAMES t || decide (39 < track.program)

/-- Stated from the spec, for comparison with `is_piano`: try the curated
piano names against the cleaned name first, and only when no name matches
fall back to the program-number range (program < 32 means piano-like). -/
def piano_rule (track : Track) : Bool :=
  if nameHit PIANO_NAMES ((remove_non_ascii (pyLower track.name)).toList) then true
  else decide (track.program < 32)

/-- Stated from the spec, for comparison with `is_bass`: curated bass names
first, else the program range 32-39. -/
def bass_rule (track : Track) : Bool :=
  if nameHit BASS_NAMES ((remove_non_ascii (pyLower track.name)).toList) then true
  else decide (32 ≤ track.program ∧ track.program ≤ 39)

/-- Stated from the spec, for comparison with `is_drum`: curated drum names
first, else the explicit drum flag. -/
def drum_rule (track : Track) : Bool :=
  if nameHit DRUM_NAMES ((remove_non_ascii (pyLower track.name)).toList) then true
  else track.is_drum

/-- Stated from the spec, for comparison with `is_other`: curated other
names first, else program above 39. -/
def other_rule (track : Track) : Bool :=
  if nameHit OTHER_NAMES ((remove_non_ascii (pyLower track.name)).toList) then true
  else decide (39 < track.program)

/-- The four track categories of the analysis in `Midi.load_midi`. -/
inductive Category where
  | piano
  | bass
  | drums
  | other
deriving DecidableEq

/-- The per-track classification implicit in the if/elif chain of
`Midi.load_midi` (lines 85-98): first matching predicate wins, in the order
piano, bass, drums, other; `none` models the unclassifiable fall-through. -/
def classify (track : Track) : Option Category :=
  if is_piano track then some .piano
  else if is_bass track then some .bass
  else if is_drum track then some .drums
  else if is_other track then some .other
  else none

/-- C1: for every track, each category membership test of the classifier is
decided exactly as the spec describes it: substring matches of the curated
name lists against the cleaned track name first, and only when no name
matches the fallback on instrument-program ranges (program < 32 piano-like,
32-39 bass-like, above 39 other-like) or, for drums, the explicit drum
flag. -/
theorem C1_classifier_name_first_program_fallback (t : Track) :
    is_piano t = piano_rule t ∧ is_bass t = bass_rule t ∧
    is_drum t = drum_rule t ∧ is_other t = other_rule t := by
  have hor : ∀ a b : Bool, (a || b) = if b then true else a := by
    intro a b; cases a <;> cases b <;> rfl
  have hor' : ∀ a b : Bool, (a || b) = if a then true else b := by
    intro a b; cases a <;> cases b <;> rfl
  have hrange : (decide (31 < t.program) && decide (t.program < 40))
      = decide (32 ≤ t.program ∧ t.program ≤ 39) := by
    by_cases h1 : 31 < t.program <;> by_cases h2 : t.program < 40 <;>
      simp [h1, h2] <;> omega
  refine ⟨?_, ?_, ?_, ?_⟩
  · show (decide (t.program < 32)
        || nameHit PIANO_NAMES ((remove_non_ascii (pyLower t.name)).toList)) = piano_rule t
    rw [hor, piano_rule]
  · show (nameHit BASS_NAMES ((remove_non_ascii (pyLower t.name)).toList)
        || (decide (31 < t.program) && decide (t.program < 40))) = bass_rule t
    rw [hor', hrange, bass_rule]
  · show (nameHit DRUM_NAMES ((remove_non_ascii (pyLower t.name)).toList)
        || t.is_drum) = drum_rule t
    rw [hor', drum_rule]
  · show (nameHit OTHER_NAMES ((remove_non_ascii (pyLower t.name)).toList)
        || decide (39 < t.program)) = other_rule t
    rw [hor', other_rule]

/-- Effective Nat position of a Python slice bound for a sequence of length
`len`: a negative bound counts from the end, and the result is clamped to
the range 0..len. -/
def pyBound (len : Nat) (i : Int) : Nat :=
  if i < 0 then (i + len).toNat else min i.toNat len

/-- Python slice `xs[l:u]`: the elements whose position lies in the
half-open range given by the effective bounds. -/
def pySlice (l u : Int) (xs : List α) : List α :=
  (xs.take (pyBound xs.length u)).drop (pyBound xs.length l)

/-- The `Midi` object: the fields assigned by `Midi.__init__`
(lines 51-57), with the optional fields as `Option`. -/
structure Midi where
  beat_resolution : Nat
  num_pitches : Nat
  notes_above : Nat
  cut : Bool
  tempo : Option Nat
  roll : Option (List (List Bool))
deriving DecidableEq

/-- Models `Midi.__init__`: `notes_above` is `num_pitches // 2`, tempo and
roll start unset. -/
def Midi.init (num_pitches : Nat) (beat_resolution : Nat) (cut : Bool) : Midi :=
  { beat_resolution := beat_resolution
    num_pitches := num_pitches
    notes_above := num_pitches / 2
    cut := cut
    tempo := none
    roll := none }

/-- The pitch-window cut applied by `Midi.load_midi` (lines 112-120): when
`cut` is set, slice every row to
`[MIDDLE_C - notes_above : MIDDLE_C + notes_above]`, else keep the roll. -/
def Midi.refine (m : Midi) (roll : List (List Bool)) : List (List Bool) :=
  if m.cut then
    roll.map (pySlice ((MIDDLE_C : Int) - m.notes_above) ((MIDDLE_C : Int) + m.notes_above))
  else roll

lemma pyBound_le (len : Nat) (i : Int) : pyBound len i ≤ len := by
  unfold pyBound; split <;> omega

lemma length_pySlice (l u : Int) (xs : List α) :
    (pySlice l u xs).length = pyBound xs.length u - pyBound xs.length l := by
  unfold pySlice
  rw [List.length_drop, List.length_take]
  have := pyBound_le xs.length u
  omega

lemma getD_pySlice (l u : Int) (xs : List α) (d : α) (k : Nat)
    (hk : k < pyBound xs.length u - pyBound xs.length l) :
    (pySlice l u xs).getD k d = xs.getD (pyBound xs.length l + k) d := by
  unfold pySlice
  rw [List.getD_eq_getElem?_getD, List.getElem?_drop,
    List.getElem?_take_of_lt (by omega), List.getD_eq_getElem?_getD]

lemma getD_map_of_lt (f : List α → List α) (roll : List (List α)) (i : Nat)
    (hi : i < roll.length) :
    (roll.map f).getD i [] = f (roll.getD i []) := by
  rw [List.getD_eq_getElem?_getD, List.getElem?_map, List.getElem?_eq_getElem hi,
    List.getD_eq_getElem?_getD, List.getElem?_eq_getElem hi]
  rfl

lemma getD_mem_of_lt (roll : List (List α)) (i : Nat) (hi : i < roll.length) :
    roll.getD i [] ∈ roll := by
  rw [List.getD_eq_getElem?_getD, List.getElem?_eq_getElem hi]
  exact List.getElem_mem hi

set_option maxRecDepth 8000 in
/-- C2, counterexample: with `num_pitches = 61` (odd) the cut keeps only
`2 * (61 / 2) = 60` pitch columns, not `num_pitches = 61` as claimed. -/
theorem C2_counterexample :
    (Midi.init 61 24 true).num_pitches = 61 ∧
    (((Midi.init 61 24 true).refine [List.replicate MIDI_INPUTS true]).getD 0 []).length = 60 ∧
    (((Midi.init 61 24 true).refine [List.replicate MIDI_INPUTS true]).getD 0 []).length
      ≠ (Midi.init 61 24 true).num_pitches := by decide

/-- C2, amended: with cut enabled the pitch-window cut keeps exactly the
columns from `MIDDLE_C - notes_above` up to but excluding
`MIDDLE_C + notes_above`; the resulting pitch width is exactly
`2 * (num_pitches / 2)`, which equals `num_pitches` exactly when
`num_pitches` is even. -/
theorem C2_cut_window (m : Midi) (roll : List (List Bool))
    (hcut : m.cut = true) (ha : m.notes_above ≤ MIDDLE_C)
    (hinv : m.notes_above = m.num_pitches / 2)
    (hw : ∀ row ∈ roll, row.length = MIDI_INPUTS) :
    (m.refine roll).length = roll.length ∧
    (∀ i, i < roll.length →
      ((m.refine roll).getD i []).length = 2 * (m.num_pitches / 2) ∧
      ∀ k, k < 2 * (m.num_pitches / 2) →
        ((m.refine roll).getD i []).getD k false
          = (roll.getD i []).getD (MIDDLE_C - m.notes_above + k) false) ∧
    (m.num_pitches % 2 = 0 → 2 * (m.num_pitches / 2) = m.num_pitches) := by
  unfold Midi.refine
  rw [hcut]
  simp only [if_pos]
  refine ⟨List.length_map roll _, ?_, by omega⟩
  intro i hi
  have hrowlen : (roll.getD i []).length = MIDI_INPUTS :=
    hw _ (getD_mem_of_lt roll i hi)
  have hbl : pyBound (roll.getD i []).length ((MIDDLE_C : Int) - m.notes_above)
      = MIDDLE_C - m.notes_above := by
    rw [hrowlen]; unfold pyBound MIDDLE_C MIDI_INPUTS at *
    split <;> omega
  have hbu : pyBound (roll.getD i []).length ((MIDDLE_C : Int) + m.notes_above)
      = MIDDLE_C + m.notes_above := by
    rw [hrowlen]; unfold pyBound MIDDLE_C MIDI_INPUTS at *
    split <;> omega
  rw [getD_map_of_lt _ roll i hi]
  constructor
  · rw [length_pySlice, hbl, hbu]; omega
  · intro k hk
    rw [getD_pySlice _ _ _ _ k (by rw [hbl, hbu]; omega), hbl]

set_option maxRecDepth 8000 in
/-- Witness for C2: the amended cut theorem evaluated on a concrete even
configuration (`num_pitches = 60`) and a single full-width row. -/
theorem C2_cut_window_witness :
    ((Midi.init 60 24 true).refine [List.replicate MIDI_INPUTS false]).length
      = ([List.replicate MIDI_INPUTS false] : List (List Bool)).length :=
  (C2_cut_window (Midi.init 60 24 true) [List.replicate MIDI_INPUTS false]
    rfl (by decide) (by decide) (by decide)).1

/-- A MIDI input file as `Midi.load_midi` sees it after
`pypianoroll.read` and `set_resolution`: a tempo (the mean tempo of the
file, abstracted to a number) and the list of its tracks. -/
structure MFile where
  tempo : Nat
  tracks : List Track
deriving DecidableEq

/-- Outcome of `Midi.load_midi`: the updated object, the `return -1`
sentinel for an unclassifiable track, or the numpy broadcast error raised
when a refined roll's width differs from the merge target's width. -/
inductive LoadResult where
  | ok (m : Midi)
  | unclassifiable
  | shapeError
deriving DecidableEq

/-- Pointwise OR of two boolean rows, keeping the longer tail. -/
def orRow : List Bool → List Bool → List Bool
  | [], ys => ys
  | x :: xs, [] => x :: xs
  | x :: xs, y :: ys => (x || y) :: orRow xs ys

/-- Pointwise OR of two boolean rolls, keeping the longer tail. -/
def orRoll : List (List Bool) → List (List Bool) → List (List Bool)
  | [], ys => ys
  | x :: xs, [] => x :: xs
  | x :: xs, y :: ys => orRow x y :: orRoll xs ys

/-- Models `multitrack.binarize().blend('any')` (line 109): the elementwise
OR of the tracks' boolean rolls (shorter tracks padded with silence). -/
def blendAny (tracks : List Track) : List (List Bool) :=
  tracks.foldl (fun acc t => orRoll acc t.pianoroll) []

/-- The filter predicate of line 102: keep a track only if it is not drum,
not bass, not other, and is piano. -/
def keepTrack (x : Track) : Bool :=
  (!(is_drum x || is_bass x || is_other x)) && is_piano x

/-- One file of the loading loop of `Midi.load_midi` (lines 77-124): set
the tempo, classify every track (`return -1`, modelled as the error, if
any is unclassifiable), keep only the filtered piano tracks, skip the file
when none remain, else blend, refine, and append the refined roll. -/
def stepFile (m : Midi) (acc : List (List (List Bool)) × Option Nat) (f : MFile) :
    Except Unit (List (List (List Bool)) × Option Nat) :=
  if f.tracks.all (fun t => (classify t).isSome) then
    let kept := f.tracks.filter keepTrack
    if kept.isEmpty then .ok (acc.1, some f.tempo)
    else .ok (acc.1 ++ [m.refine (blendAny kept)], some f.tempo)
  else .error ()

/-- The merge of lines 127-133: a zero roll of width `width` whose rows are
filled contiguously from the collected rolls.  The numpy assignment
broadcasts only when every row has exactly width `width`; otherwise it
raises, modelled as `none`. -/
def mergeRolls (width : Nat) (rolls : List (List (List Bool))) :
    Option (List (List Bool)) :=
  if rolls.all (fun r => r.all (fun row => decide (row.length = width))) then
    some rolls.flatten
  else none

/-- The `for fname in fnames` loop of `Midi.load_midi`: run `stepFile` on
each file in order, stopping at the first unclassifiable track. -/
def loadLoop (m : Midi) :
    List (List (List Bool)) × Option Nat → List MFile →
      Except Unit (List (List (List Bool)) × Option Nat)
  | acc, [] => .ok acc
  | acc, f :: fs =>
    match stepFile m acc f with
    | .error e => .error e
    | .ok acc' => loadLoop m acc' fs

/-- Models `Midi.load_midi` (lines 68-135): run the per-file loop over the
input files, then merge the collected refined rolls into the object's roll. -/
def Midi.load_midi (m : Midi) (files : List MFile) : LoadResult :=
  match loadLoop m ([], m.tempo) files with
  | .error _ => .unclassifiable
  | .ok (rolls, tempo) =>
    match mergeRolls m.num_pitches rolls with
    | none => .shapeError
    | some extended => .ok { m with roll := some extended, tempo := tempo }

/-- Models `Midi.load_np` (lines 137-152) on a two-dimensional boolean
array; the `ndim > 2` branch of the source, which reshapes a
singleton-batch three-dimensional array down to two dimensions, is outside
this model.  The array width `roll.shape[1]` is the common row length,
read off the first row.  Note the roll and tempo are assigned in every
branch, including the over-wide error branch. -/
def Midi.load_np (m : Midi) (roll : List (List Bool)) (tempo : Nat) : Midi :=
  let width := (roll.headD []).length
  let m' :=
    if MIDI_INPUTS < width then m
    else if width = MIDI_INPUTS then { m with cut := false }
    else { m with num_pitches := width, notes_above := width / 2, cut := true }
  { m' with roll := some roll, tempo := some tempo }

/-- The refined rolls of the files that `Midi.load_midi` keeps: files whose
filtered track list is empty are skipped, every other file contributes its
blended, refined roll, in input order. -/
def keptRefined (m : Midi) (files : List MFile) : List (List (List Bool)) :=
  files.filterMap (fun f =>
    let kept := f.tracks.filter keepTrack
    if kept.isEmpty then none else some (m.refine (blendAny kept)))

/-- The tempo after the loading loop: the last file's tempo, or the
initial value when there are no files. -/
def lastTempo (files : List MFile) (t0 : Option Nat) : Option Nat :=
  files.foldl (fun _ f => some f.tempo) t0

lemma stepFile_eq (m : Midi) (acc : List (List (List Bool)) × Option Nat) (f : MFile) :
    stepFile m acc f =
      if f.tracks.all (fun t => (classify t).isSome) then
        if (f.tracks.filter keepTrack).isEmpty then .ok (acc.1, some f.tempo)
        else .ok (acc.1 ++ [m.refine (blendAny (f.tracks.filter keepTrack))], some f.tempo)
      else .error () := by
  simp only [stepFile]

lemma loadLoop_cons_ok (m : Midi) (acc acc' : List (List (List Bool)) × Option Nat)
    (f : MFile) (fs : List MFile) (h : stepFile m acc f = .ok acc') :
    loadLoop m acc (f :: fs) = loadLoop m acc' fs := by
  conv_lhs => rw [loadLoop]
  rw [h]

lemma loadLoop_cons_error (m : Midi) (acc : List (List (List Bool)) × Option Nat)
    (f : MFile) (fs : List MFile) (h : stepFile m acc f = .error ()) :
    loadLoop m acc (f :: fs) = .error () := by
  conv_lhs => rw [loadLoop]
  rw [h]

lemma keptRefined_cons (m : Midi) (f : MFile) (fs : List MFile) :
    keptRefined m (f :: fs)
      = if (f.tracks.filter keepTrack).isEmpty then keptRefined m fs
        else m.refine (blendAny (f.tracks.filter keepTrack)) :: keptRefined m fs := by
  simp only [keptRefined, List.filterMap_cons]
  by_cases hk : (f.tracks.filter keepTrack).isEmpty <;> simp [hk]

lemma loadLoop_ok (m : Midi) (files : List MFile)
    (hcls : ∀ f ∈ files, ∀ t ∈ f.tracks, (classify t).isSome = true) :
    ∀ acc : List (List (List Bool)) × Option Nat,
      loadLoop m acc files = .ok (acc.1 ++ keptRefined m files, lastTempo files acc.2) := by
  induction files with
  | nil => intro acc; simp [loadLoop, keptRefined, lastTempo]
  | cons f fs ih =>
    intro acc
    have hf : f.tracks.all (fun t => (classify t).isSome) = true := by
      rw [List.all_eq_true]
      exact fun t ht => hcls f (by simp) t ht
    have hfs : ∀ f' ∈ fs, ∀ t ∈ f'.tracks, (classify t).isSome = true :=
      fun f' hf' => hcls f' (by simp [hf'])
    rw [keptRefined_cons]
    by_cases hk : (f.tracks.filter keepTrack).isEmpty
    · rw [loadLoop_cons_ok m acc (acc.1, some f.tempo) f fs
        (by rw [stepFile_eq, if_pos hf, if_pos hk]), ih hfs, if_pos hk]
      rfl
    · rw [loadLoop_cons_ok m acc
        (acc.1 ++ [m.refine (blendAny (f.tracks.filter keepTrack))], some f.tempo) f fs
        (by rw [stepFile_eq, if_pos hf, if_neg hk]), ih hfs, if_neg hk]
      simp [lastTempo]

lemma loadLoop_error_iff (m : Midi) (files : List MFile) :
    ∀ acc, (loadLoop m acc files = .error ()
      ↔ ∃ f ∈ files, ∃ t ∈ f.tracks, classify t = none) := by
  induction files with
  | nil => intro acc; simp [loadLoop]
  | cons f fs ih =>
    intro acc
    by_cases hc : f.tracks.all (fun t => (classify t).isSome) = true
    · have hnone : ¬ ∃ t ∈ f.tracks, classify t = none := by
        rw [List.all_eq_true] at hc
        rintro ⟨t, ht, hn⟩
        have := hc t ht
        rw [hn] at this
        simp at this
      by_cases hk : (f.tracks.filter keepTrack).isEmpty
      · rw [loadLoop_cons_ok m acc (acc.1, some f.tempo) f fs
          (by rw [stepFile_eq, if_pos hc, if_pos hk]), ih]
        simp [hnone]
      · rw [loadLoop_cons_ok m acc
          (acc.1 ++ [m.refine (blendAny (f.tracks.filter keepTrack))], some f.tempo) f fs
          (by rw [stepFile_eq, if_pos hc, if_neg hk]), ih]
        simp [hnone]
    · rw [loadLoop_cons_error m acc f fs (by rw [stepFile_eq, if_neg hc])]
      rw [List.all_eq_true] at hc
      simp only [not_forall] at hc
      constructor
      · intro _
        obtain ⟨t, ht, hns⟩ := hc
        refine ⟨f, by simp, t, ht, ?_⟩
        simpa using hns
      · intro _
        rfl

lemma orRow_length (xs : List Bool) : ∀ ys, (orRow xs ys).length = max xs.length ys.length := by
  induction xs with
  | nil => intro ys; simp [orRow]
  | cons x xs ih =>
    intro ys
    cases ys with
    | nil => simp [orRow]
    | cons y ys => simp [orRow, ih]; omega

lemma orRoll_rows_length (w : Nat) (A : List (List Bool)) :
    ∀ B, (∀ r ∈ A, r.length = w) → (∀ r ∈ B, r.length = w) →
      ∀ r ∈ orRoll A B, r.length = w := by
  induction A with
  | nil => intro B _ hB; simpa [orRoll] using hB
  | cons a A ih =>
    intro B hA hB r hr
    cases B with
    | nil => exact hA r (by simpa [orRoll] using hr)
    | cons b B =>
      rw [orRoll] at hr
      rcases List.mem_cons.mp hr with h | h
      · subst h
        rw [orRow_length, hA a (by simp), hB b (by simp)]
        omega
      · exact ih B (fun r hr => hA r (by simp [hr])) (fun r hr => hB r (by simp [hr])) r h

lemma blendAny_go (w : Nat) (tracks : List Track) :
    ∀ acc : List (List Bool),
      (∀ tr ∈ tracks, ∀ r ∈ tr.pianoroll, r.length = w) →
      (∀ r ∈ acc, r.length = w) →
      ∀ r ∈ tracks.foldl (fun acc t => orRoll acc t.pianoroll) acc, r.length = w := by
  induction tracks with
  | nil => intro acc _ hacc; simpa using hacc
  | cons tr tracks ih =>
    intro acc h hacc
    rw [List.foldl_cons]
    exact ih (orRoll acc tr.pianoroll) (fun tr' htr' => h tr' (by simp [htr']))
      (orRoll_rows_length w acc tr.pianoroll hacc (h tr (by simp)))

lemma blendAny_rows_length (w : Nat) (tracks : List Track)
    (h : ∀ tr ∈ tracks, ∀ r ∈ tr.pianoroll, r.length = w) :
    ∀ r ∈ blendAny tracks, r.length = w :=
  blendAny_go w tracks [] h (by simp)

lemma refine_rows_length (m : Midi) (roll : List (List Bool))
    (hcut : m.cut = true) (ha : m.notes_above ≤ MIDDLE_C)
    (hw : ∀ r ∈ roll, r.length = MIDI_INPUTS) :
    ∀ r ∈ m.refine roll, r.length = 2 * m.notes_above := by
  unfold Midi.refine
  rw [hcut]
  simp only [if_pos]
  intro r hr
  rw [List.mem_map] at hr
  obtain ⟨row, hrow, rfl⟩ := hr
  rw [length_pySlice]
  have hlen := hw row hrow
  rw [hlen]
  unfold pyBound MIDDLE_C MIDI_INPUTS at *
  split <;> split <;> omega

/-- C6: the per-track classification of `load_midi` assigns exactly one of
the four categories, following the order piano, bass, drums, other; and
`load_midi` returns the `-1` sentinel exactly when some track matches none
of the four predicates. -/
theorem C6_exactly_one_category_and_sentinel :
    (∀ t : Track,
      (classify t = some .piano ↔ is_piano t = true) ∧
      (classify t = some .bass ↔ (is_piano t = false ∧ is_bass t = true)) ∧
      (classify t = some .drums ↔
        (is_piano t = false ∧ is_bass t = false ∧ is_drum t = true)) ∧
      (classify t = some .other ↔
        (is_piano t = false ∧ is_bass t = false ∧ is_drum t = false ∧ is_other t = true)) ∧
      (classify t = none ↔
        (is_piano t = false ∧ is_bass t = false ∧ is_drum t = false ∧ is_other t = false))) ∧
    (∀ (m : Midi) (files : List MFile),
      m.load_midi files = .unclassifiable
        ↔ ∃ f ∈ files, ∃ t ∈ f.tracks, classify t = none) := by
  constructor
  · intro t
    cases hp : is_piano t <;> cases hb : is_bass t <;> cases hd : is_drum t <;>
      cases ho : is_other t <;> simp [classify, hp, hb, hd, ho]
  · intro m files
    unfold Midi.load_midi
    rcases h : loadLoop m ([], m.tempo) files with e | ⟨rolls, tempo⟩
    · cases e
      rw [← loadLoop_error_iff m files ([], m.tempo), h]
      simp
    · have hne : ¬ (loadLoop m ([], m.tempo) files = .error ()) := by
        rw [h]; intro hco; cases hco
      rw [loadLoop_error_iff m files ([], m.tempo)] at hne
      cases hm : mergeRolls m.num_pitches rolls <;> simp [hm, hne]

set_option maxRecDepth 20000 in
/-- C5, counterexample: a batch whose single file's single track is
classifiable (program 0) can still produce no merged roll: with
`cut = False` the refined roll keeps all 128 pitches while the merge
target is `num_pitches = 60` wide, and the numpy fill raises. -/
theorem C5_counterexample :
    (∀ t ∈ (⟨120, [⟨"lead", 0, false, [List.replicate MIDI_INPUTS false]⟩]⟩ : MFile).tracks,
      (classify t).isSome = true) ∧
    (Midi.init 60 24 false).load_midi
        [⟨120, [⟨"lead", 0, false, [List.replicate MIDI_INPUTS false]⟩]⟩]
      = .shapeError := by decide

lemma load_midi_eq_ok (m : Midi) (files : List MFile)
    (rolls : List (List (List Bool))) (tempo : Option Nat) (ext : List (List Bool))
    (h1 : loadLoop m ([], m.tempo) files = .ok (rolls, tempo))
    (h2 : mergeRolls m.num_pitches rolls = some ext) :
    m.load_midi files = .ok { m with roll := some ext, tempo := tempo } := by
  unfold Midi.load_midi
  rw [h1]
  simp only [h2]

/-- C5, amended: when the cut is enabled and `num_pitches` is twice
`notes_above` (the even case of the invariant), a batch of full-width files
in which every track is classifiable loads to a merged roll that is exactly
the concatenation, in input order, of the kept files' refined rolls: its
time length is the sum of their lengths, every row has width
`num_pitches`, and a file with zero piano tracks after filtering
contributes nothing while processing continues. -/
theorem C5_merge (m : Midi) (files : List MFile)
    (hcls : ∀ f ∈ files, ∀ t ∈ f.tracks, (classify t).isSome = true)
    (hw : ∀ f ∈ files, ∀ t ∈ f.tracks, ∀ row ∈ t.pianoroll, row.length = MIDI_INPUTS)
    (hcut : m.cut = true) (ha : m.notes_above ≤ MIDDLE_C)
    (hnp : m.num_pitches = 2 * m.notes_above) :
    m.load_midi files
      = .ok { m with roll := some (keptRefined m files).flatten,
                     tempo := lastTempo files m.tempo } ∧
    (keptRefined m files).flatten.length
      = ((keptRefined m files).map List.length).sum ∧
    (∀ row ∈ (keptRefined m files).flatten, row.length = m.num_pitches) ∧
    (∀ pre f post, files = pre ++ f :: post →
      (f.tracks.filter keepTrack).isEmpty = true →
      keptRefined m files = keptRefined m (pre ++ post)) := by
  have hrows : ∀ r ∈ keptRefined m files, ∀ row ∈ r, row.length = m.num_pitches := by
    intro r hr
    unfold keptRefined at hr
    rw [List.mem_filterMap] at hr
    obtain ⟨f, hf, hsome⟩ := hr
    by_cases hk : (f.tracks.filter keepTrack).isEmpty
    · simp [hk] at hsome
    · simp only [hk] at hsome
      rw [if_neg (by simp), Option.some_inj] at hsome
      subst hsome
      intro row hrow
      rw [hnp]
      refine refine_rows_length m (blendAny (f.tracks.filter keepTrack)) hcut ha ?_ row hrow
      exact blendAny_rows_length MIDI_INPUTS _
        (fun tr htr => hw f hf tr (List.mem_of_mem_filter htr))
  have hmerge : mergeRolls m.num_pitches (keptRefined m files)
      = some (keptRefined m files).flatten := by
    unfold mergeRolls
    rw [if_pos]
    simp only [List.all_eq_true, decide_eq_true_eq]
    exact hrows
  refine ⟨?_, List.length_flatten _, ?_, ?_⟩
  · refine load_midi_eq_ok m files (keptRefined m files) (lastTempo files m.tempo) _ ?_ hmerge
    rw [loadLoop_ok m files hcls ([], m.tempo)]
    simp
  · intro row hrow
    rw [List.mem_flatten] at hrow
    obtain ⟨r, hr, hrow⟩ := hrow
    exact hrows r hr row hrow
  · intro pre f post heq hk
    subst heq
    unfold keptRefined
    rw [List.filterMap_append, List.filterMap_append, List.filterMap_cons]
    simp [hk]

/-- Concrete configuration shared by the closed witness theorems: an even
`num_pitches` of 60 with the cut enabled. -/
def sampleMidi : Midi := Midi.init 60 24 true

/-- A file with one classifiable piano track of full width. -/
def fileKept : MFile := ⟨100, [⟨"Grand Piano", 0, false, [List.replicate MIDI_INPUTS true]⟩]⟩

/-- A file whose only track is a classifiable bass track, so no piano track
survives the filter and the file is skipped. -/
def fileSkipped : MFile := ⟨90, [⟨"Slap Bass", 36, false, [List.replicate MIDI_INPUTS true]⟩]⟩

set_option maxRecDepth 40000 in
/-- Witness for C5: the amended merge theorem evaluated on a concrete batch
with one kept file and one skipped file. -/
theorem C5_merge_witness :
    sampleMidi.load_midi [fileKept, fileSkipped]
      = .ok { sampleMidi with
              roll := some (keptRefined sampleMidi [fileKept, fileSkipped]).flatten,
              tempo := lastTempo [fileKept, fileSkipped] sampleMidi.tempo } :=
  (C5_merge sampleMidi [fileKept, fileSkipped] (by decide) (by decide)
    (by decide) (by decide) (by decide)).1

/-- Python built-in `range(0, stop, step)` for a non-negative stop: the
indices `0, step, 2*step, ...` strictly below `stop`.  (`vectorise` calls
it with a positive step; a negative Python stop is modelled by the Nat
truncation `stop = 0`, which likewise yields the empty range.) -/
def pyRange (stop step : Nat) : List Nat :=
  (List.range ((stop + step - 1) / step)).map (fun j => j * step)

lemma lt_ceil_iff (step : Nat) (hstep : 0 < step) (j stop : Nat) :
    j < (stop + step - 1) / step ↔ j * step < stop := by
  rw [Nat.lt_iff_add_one_le, Nat.le_div_iff_mul_le hstep]
  have h : (j + 1) * step = j * step + step := by ring
  omega

/-- Sanity check of the `range` model: its members are exactly the
multiples of the step below the stop. -/
lemma mem_pyRange_iff (stop step i : Nat) (hstep : 0 < step) :
    i ∈ pyRange stop step ↔ (∃ j, i = j * step) ∧ i < stop := by
  unfold pyRange
  rw [List.mem_map]
  constructor
  · rintro ⟨j, hj, rfl⟩
    rw [List.mem_range, lt_ceil_iff step hstep] at hj
    exact ⟨⟨j, rfl⟩, hj⟩
  · rintro ⟨⟨j, rfl⟩, hlt⟩
    refine ⟨j, ?_, rfl⟩
    rw [List.mem_range, lt_ceil_iff step hstep]
    exact hlt

lemma length_pyRange (stop step : Nat) :
    (pyRange stop step).length = (stop + step - 1) / step := by
  simp [pyRange]

lemma pyRange_zero (step : Nat) : pyRange 0 step = [] := by
  cases step with
  | zero => rfl
  | succ s =>
    unfold pyRange
    rw [Nat.div_eq_of_lt (by omega)]
    rfl

lemma getD_map_general (f : α → β) (l : List α) (j : Nat) (d : α) (e : β)
    (hj : j < l.length) :
    (l.map f).getD j e = f (l.getD j d) := by
  rw [List.getD_eq_getElem?_getD, List.getElem?_map, List.getElem?_eq_getElem hj,
    List.getD_eq_getElem?_getD, List.getElem?_eq_getElem hj]
  rfl

lemma getD_pyRange (stop step j : Nat) (hj : j < (stop + step - 1) / step) :
    (pyRange stop step).getD j 0 = j * step := by
  unfold pyRange
  rw [getD_map_general _ _ j 0 0 (by simpa using hj)]
  congr 1
  rw [List.getD_eq_getElem?_getD, List.getElem?_range hj]
  rfl

/-- Models `Midi.vectorise` (lines 154-171): for each start index of
`range(0, roll_length - lookback, step)` take the phrase
`roll[i : i + lookback]` and the label `roll[i + lookback]`.  The dense
second phase of the source, which copies the collected phrases into
freshly zeroed boolean arrays, is the identity on these lists. -/
def Midi.vectorise (m : Midi) (lookback step : Nat) :
    List (List (List Bool)) × List (List Bool) :=
  let roll := m.roll.getD []
  let idxs := pyRange (roll.length - lookback) step
  (idxs.map (fun i => (roll.drop i).take lookback),
   idxs.map (fun i => roll.getD (i + lookback) []))

/-- C3: for a loaded roll of length `L > W`, lookback `W` and positive
stride `S`, `vectorise` yields exactly `ceil((L - W) / S)` phrase/label
pairs; the `j`-th pair (start index `j * S`) is the phrase
`roll[j*S : j*S + W]`, of `W` rows of width `num_pitches`, and the label
`roll[j*S + W]`, of width `num_pitches`. -/
theorem C3_vectorise_pairs (m : Midi) (roll : List (List Bool)) (W S : Nat)
    (hroll : m.roll = some roll) (hW : W < roll.length) (hS : 0 < S)
    (hw : ∀ row ∈ roll, row.length = m.num_pitches) :
    (m.vectorise W S).1.length = (roll.length - W + S - 1) / S ∧
    (m.vectorise W S).2.length = (roll.length - W + S - 1) / S ∧
    ∀ j, j < (roll.length - W + S - 1) / S →
      (m.vectorise W S).1.getD j [] = (roll.drop (j * S)).take W ∧
      ((m.vectorise W S).1.getD j []).length = W ∧
      (∀ row ∈ (m.vectorise W S).1.getD j [], row.length = m.num_pitches) ∧
      (m.vectorise W S).2.getD j [] = roll.getD (j * S + W) [] ∧
      ((m.vectorise W S).2.getD j []).length = m.num_pitches := by
  have hv : m.vectorise W S
      = ((pyRange (roll.length - W) S).map (fun i => (roll.drop i).take W),
         (pyRange (roll.length - W) S).map (fun i => roll.getD (i + W) [])) := by
    simp only [Midi.vectorise, hroll, Option.getD_some]
  rw [hv]
  refine ⟨by simp [length_pyRange], by simp [length_pyRange], ?_⟩
  intro j hj
  have hjlen : j < (pyRange (roll.length - W) S).length := by
    rw [length_pyRange]; exact hj
  have hidx : (pyRange (roll.length - W) S).getD j 0 = j * S :=
    getD_pyRange _ _ j hj
  have hbound : j * S < roll.length - W := (lt_ceil_iff S hS j _).mp hj
  have hphrase : ((pyRange (roll.length - W) S).map
      (fun i => (roll.drop i).take W)).getD j [] = (roll.drop (j * S)).take W := by
    rw [getD_map_general _ _ j 0 [] hjlen, hidx]
  have hlabel : ((pyRange (roll.length - W) S).map
      (fun i => roll.getD (i + W) [])).getD j [] = roll.getD (j * S + W) [] := by
    rw [getD_map_general _ _ j 0 [] hjlen, hidx]
  refine ⟨hphrase, ?_, ?_, hlabel, ?_⟩
  · rw [hphrase, List.length_take, List.length_drop]
    omega
  · intro row hrow
    rw [hphrase] at hrow
    exact hw row (List.mem_of_mem_drop (List.mem_of_mem_take hrow))
  · rw [hlabel]
    exact hw _ (getD_mem_of_lt roll _ (by omega))

/-- Witness for C3: `vectorise` on a concrete three-row roll with lookback
two and stride one yields exactly one phrase. -/
theorem C3_vectorise_pairs_witness :
    ((⟨24, 1, 0, true, none, some [[true], [false], [true]]⟩ : Midi).vectorise 2 1).1.length
      = 1 :=
  (C3_vectorise_pairs ⟨24, 1, 0, true, none, some [[true], [false], [true]]⟩
    [[true], [false], [true]] 2 1 rfl (by decide) (by decide) (by decide)).1

/-- C9: when the loaded roll is no longer than the lookback, the Python
range is empty, so `vectorise` performs no roll access at all and returns
two empty arrays; vacuously, every visited label index stays in bounds. -/
theorem C9_vectorise_short_roll (m : Midi) (roll : List (List Bool)) (W S : Nat)
    (hroll : m.roll = some roll) (h : roll.length ≤ W) :
    m.vectorise W S = ([], []) ∧
    ∀ i ∈ pyRange (roll.length - W) S, i + W < roll.length := by
  have h0 : roll.length - W = 0 := Nat.sub_eq_zero_of_le h
  constructor
  · simp only [Midi.vectorise, hroll, Option.getD_some, h0, pyRange_zero]
    rfl
  · rw [h0, pyRange_zero]
    intro i hi
    cases hi

/-- Witness for C9: `vectorise` with a one-row roll and lookback one
returns the empty pair. -/
theorem C9_vectorise_short_roll_witness :
    (⟨24, 1, 0, true, none, some [[true]]⟩ : Midi).vectorise 1 1 = ([], []) :=
  (C9_vectorise_short_roll ⟨24, 1, 0, true, none, some [[true]]⟩ [[true]] 1 1
    rfl (by decide)).1

/-- Models `np.roll(row, s, axis=1)` on one row: a circular shift moving
each entry to an index higher by `s` modulo the width, wrapping around. -/
def np_roll (s : Int) (row : List α) : List α :=
  if row.length = 0 then row
  else row.rotate (row.length - (s % (row.length : Int)).toNat)

/-- Sanity check of the `np.roll` model on a positive shift. -/
lemma np_roll_pos_example : np_roll 2 [1, 2, 3, 4, 5] = [4, 5, 1, 2, 3] := by decide

/-- Sanity check of the `np.roll` model on a negative shift. -/
lemma np_roll_neg_example : np_roll (-1) [1, 2, 3, 4, 5] = [2, 3, 4, 5, 1] := by decide

lemma np_roll_length (s : Int) (row : List α) : (np_roll s row).length = row.length := by
  unfold np_roll
  split
  · rfl
  · exact List.length_rotate row _

lemma np_roll_count (s : Int) (row : List Bool) (b : Bool) :
    (np_roll s row).count b = row.count b := by
  unfold np_roll
  split
  · rfl
  · exact (List.rotate_perm row _).count_eq b

/-- The two shifted copies appended by iteration `i = 1..k` of the augment
loop (lines 214-218): first the up-shift by `i * v`, then the down-shift. -/
def augBlocks (roll : List (List Bool)) (v : Int) : Nat → List (List Bool)
  | 0 => []
  | k + 1 =>
    augBlocks roll v k
      ++ roll.map (np_roll (((k : Int) + 1) * v))
      ++ roll.map (np_roll (-(((k : Int) + 1) * v)))

/-- Models `Midi.augment` (lines 204-220): report and return unchanged when
no roll is loaded; otherwise the zeroed target of
`(2*(n_augments//2)+1) * L` rows is filled with the roll itself followed,
for `i = 1..n_augments//2`, by `np.roll(roll, i*v_step, axis=1)` and
`np.roll(roll, -i*v_step, axis=1)`; the contiguous fill is modelled as
concatenation. -/
def Midi.augment (m : Midi) (n_augments : Nat) (v_step : Int) : Midi :=
  match m.roll with
  | none => m
  | some roll =>
    { m with roll := some (roll ++ augBlocks roll v_step (n_augments / 2)) }

lemma length_augBlocks (roll : List (List Bool)) (v : Int) :
    ∀ k, (augBlocks roll v k).length = 2 * k * roll.length := by
  intro k
  induction k with
  | zero => simp [augBlocks]
  | succ k ih =>
    rw [augBlocks, List.length_append, List.length_append, ih,
      List.length_map, List.length_map]
    ring

lemma drop_take_append (A B : List α) (i t : Nat) (h : i + t ≤ A.length) :
    ((A ++ B).drop i).take t = (A.drop i).take t := by
  rw [List.drop_append_of_le_length (by omega),
    List.take_append_of_le_length (by rw [List.length_drop]; omega)]

lemma augBlocks_rows_length (roll : List (List Bool)) (v : Int) (w : Nat)
    (hw : ∀ row ∈ roll, row.length = w) :
    ∀ k, ∀ row ∈ augBlocks roll v k, row.length = w := by
  intro k
  induction k with
  | zero => intro row hrow; cases hrow
  | succ k ih =>
    intro row hrow
    rw [augBlocks, List.append_assoc] at hrow
    rcases List.mem_append.mp hrow with h | h
    · exact ih row h
    · rcases List.mem_append.mp h with h' | h' <;>
      · obtain ⟨row₀, hrow₀, rfl⟩ := List.mem_map.mp h'
        rw [np_roll_length]
        exact hw row₀ hrow₀

lemma augBlocks_block (roll : List (List Bool)) (v : Int) :
    ∀ k j, j < k →
      ((augBlocks roll v k).drop (2 * j * roll.length)).take roll.length
        = roll.map (np_roll (((j : Int) + 1) * v)) ∧
      ((augBlocks roll v k).drop ((2 * j + 1) * roll.length)).take roll.length
        = roll.map (np_roll (-(((j : Int) + 1) * v))) := by
  intro k
  induction k with
  | zero => intro j hj; exact absurd hj (Nat.not_lt_zero j)
  | succ k ih =>
    intro j hj
    have hupl : (roll.map (np_roll (((k : Int) + 1) * v))).length = roll.length :=
      List.length_map roll _
    have hdnl : (roll.map (np_roll (-(((k : Int) + 1) * v)))).length = roll.length :=
      List.length_map roll _
    rcases Nat.lt_or_ge j k with hlt | hge
    · have hA : (augBlocks roll v k).length = 2 * k * roll.length :=
        length_augBlocks roll v k
      have hle1 : 2 * j * roll.length + roll.length ≤ (augBlocks roll v k).length := by
        rw [hA]
        calc 2 * j * roll.length + roll.length = (2 * j + 1) * roll.length := by ring
        _ ≤ 2 * k * roll.length := Nat.mul_le_mul_right _ (by omega)
      have hle2 : (2 * j + 1) * roll.length + roll.length ≤ (augBlocks roll v k).length := by
        rw [hA]
        calc (2 * j + 1) * roll.length + roll.length = (2 * j + 2) * roll.length := by ring
        _ ≤ 2 * k * roll.length := Nat.mul_le_mul_right _ (by omega)
      rw [augBlocks, List.append_assoc, drop_take_append _ _ _ _ hle1]
      constructor
      · exact (ih j hlt).1
      · rw [drop_take_append _ _ _ _ hle2]
        exact (ih j hlt).2
    · have hjk : j = k := by omega
      subst hjk
      have hA : (augBlocks roll v j).length = 2 * j * roll.length :=
        length_augBlocks roll v j
      constructor
      · rw [augBlocks, List.append_assoc, ← hA, List.drop_left,
          List.take_append_of_le_length (by rw [hupl]), ← hupl, List.take_length]
      · have hAB : ((augBlocks roll v j) ++ roll.map (np_roll (((j : Int) + 1) * v))).length
            = (2 * j + 1) * roll.length := by
          rw [List.length_append, hA, hupl]
          ring
        rw [augBlocks, ← hAB, List.drop_left, ← hdnl, List.take_length]

/-- C4: for a loaded roll of length `L`, `augment` with count `n` and
vertical step `v` produces a roll of exactly `(2*(n//2)+1) * L` rows whose
leading `L` rows are the unshifted original, followed for each
`j = 0..n//2-1` by the copy circularly shifted up by `(j+1)*v` pitches and
then the copy circularly shifted down by `(j+1)*v` pitches; the shifts
wrap (per-row note counts are preserved, so no note is dropped) and every
row keeps width `num_pitches` (the boolean entry type is fixed by the
embedding). -/
theorem C4_augment (m : Midi) (roll : List (List Bool)) (n : Nat) (v : Int)
    (hroll : m.roll = some roll)
    (hw : ∀ row ∈ roll, row.length = m.num_pitches) :
    ∃ r, (m.augment n v).roll = some r ∧
      r.length = (2 * (n / 2) + 1) * roll.length ∧
      r.take roll.length = roll ∧
      (∀ j, j < n / 2 →
        (r.drop ((2 * j + 1) * roll.length)).take roll.length
          = roll.map (np_roll (((j : Int) + 1) * v)) ∧
        (r.drop ((2 * j + 2) * roll.length)).take roll.length
          = roll.map (np_roll (-(((j : Int) + 1) * v)))) ∧
      (∀ row ∈ r, row.length = m.num_pitches) ∧
      (∀ s : Int, ∀ row ∈ roll, ∀ b : Bool,
        (np_roll s row).count b = row.count b) := by
  refine ⟨roll ++ augBlocks roll v (n / 2), ?_, ?_, List.take_left roll _, ?_, ?_, ?_⟩
  · unfold Midi.augment
    rw [hroll]
  · rw [List.length_append, length_augBlocks]
    ring
  · intro j hj
    have h1 : (2 * j + 1) * roll.length = roll.length + 2 * j * roll.length := by ring
    have h2 : (2 * j + 2) * roll.length = roll.length + (2 * j + 1) * roll.length := by ring
    constructor
    · rw [h1, List.drop_append]
      exact (augBlocks_block roll v (n / 2) j hj).1
    · rw [h2, List.drop_append]
      exact (augBlocks_block roll v (n / 2) j hj).2
  · intro row hrow
    rcases List.mem_append.mp hrow with h | h
    · exact hw row h
    · exact augBlocks_rows_length roll v m.num_pitches hw (n / 2) row h
  · intro s row _ b
    exact np_roll_count s row b

/-- Witness for C4: `augment` evaluated on a concrete one-row roll of width
two, with two augmentations and a vertical step of one. -/
theorem C4_augment_witness :
    ∃ r, ((⟨24, 2, 1, true, none, some [[true, false]]⟩ : Midi).augment 2 1).roll = some r ∧
      r.length = (2 * (2 / 2) + 1) * 1 ∧
      r.take 1 = [[true, false]] ∧
      (∀ j, j < 2 / 2 →
        (r.drop ((2 * j + 1) * 1)).take 1
          = ([[true, false]] : List (List Bool)).map (np_roll (((j : Int) + 1) * 1)) ∧
        (r.drop ((2 * j + 2) * 1)).take 1
          = ([[true, false]] : List (List Bool)).map (np_roll (-(((j : Int) + 1) * 1)))) ∧
      (∀ row ∈ r, row.length = 2) ∧
      (∀ s : Int, ∀ row ∈ ([[true, false]] : List (List Bool)), ∀ b : Bool,
        (np_roll s row).count b = row.count b) :=
  C4_augment ⟨24, 2, 1, true, none, some [[true, false]]⟩ [[true, false]] 2 1
    rfl (by decide)

/-- C8: calling `augment` on a `Midi` whose roll is not loaded reports the
error and changes nothing: the object, in particular its roll,
`num_pitches`, `notes_above`, `cut` and tempo, is returned unchanged. -/
theorem C8_augment_noop (m : Midi) (n : Nat) (v : Int) (h : m.roll = none) :
    m.augment n v = m ∧
    (m.augment n v).roll = none ∧
    (m.augment n v).num_pitches = m.num_pitches ∧
    (m.augment n v).notes_above = m.notes_above ∧
    (m.augment n v).cut = m.cut ∧
    (m.augment n v).tempo = m.tempo := by
  have he : m.augment n v = m := by
    unfold Midi.augment
    rw [h]
  rw [he]
  exact ⟨rfl, h, rfl, rfl, rfl, rfl⟩

/-- Witness for C8: `augment` on a freshly constructed `Midi`, whose roll
is unset, returns it unchanged. -/
theorem C8_augment_noop_witness :
    (Midi.init 60 24 true).augment 4 5 = Midi.init 60 24 true :=
  (C8_augment_noop (Midi.init 60 24 true) 4 5 rfl).1

/-- Models the numpy assignment
`export[:, MIDDLE_C - notes_above : MIDDLE_C + notes_above] = row` on one
freshly zeroed 128-wide export row (`Midi.reformat_roll`, line 176).  The
numpy broadcast accepts it exactly when the row's length equals the slice
width; the theorems below assume that. -/
def writeSlice (a : Nat) (row : List Bool) : List Bool :=
  let l := pyBound MIDI_INPUTS ((MIDDLE_C : Int) - a)
  (List.replicate MIDI_INPUTS false).take l ++ row
    ++ (List.replicate MIDI_INPUTS false).drop (l + row.length)

/-- Models `Midi.reformat_roll` (lines 173-178): zero-fill the held roll
back to the full 128-pitch width, writing it into the symmetric window. -/
def Midi.reformat_roll (m : Midi) : List (List Bool) :=
  (m.roll.getD []).map (writeSlice m.notes_above)

/-- The roll `Midi.save` (lines 180-192) hands to the export track: the
reformatted roll when the cut is set, else a copy of the held roll (the
MIDI file write itself is outside the embedding). -/
def Midi.save_roll (m : Midi) : List (List Bool) :=
  if m.cut then m.reformat_roll else m.roll.getD []

lemma writeSlice_bound (a : Nat) (ha : a ≤ MIDDLE_C) :
    pyBound MIDI_INPUTS ((MIDDLE_C : Int) - a) = MIDDLE_C - a := by
  unfold pyBound MIDDLE_C MIDI_INPUTS at *
  split <;> omega

lemma writeSlice_length (a : Nat) (row : List Bool)
    (ha : a ≤ MIDDLE_C) (hrow : row.length = 2 * a) :
    (writeSlice a row).length = MIDI_INPUTS := by
  simp only [writeSlice]
  rw [writeSlice_bound a ha, hrow]
  simp only [List.length_append, List.length_take, List.length_drop,
    List.length_replicate]
  unfold MIDDLE_C MIDI_INPUTS at *
  omega

lemma writeSlice_getD (a : Nat) (row : List Bool)
    (ha : a ≤ MIDDLE_C) (hrow : row.length = 2 * a)
    (j : Nat) (hj : j < MIDI_INPUTS) :
    (writeSlice a row).getD j false
      = if MIDDLE_C - a ≤ j ∧ j < MIDDLE_C + a then
          row.getD (j - (MIDDLE_C - a)) false
        else false := by
  simp only [writeSlice]
  rw [writeSlice_bound a ha, hrow, List.take_replicate, List.drop_replicate,
    List.append_assoc, List.getD_eq_getElem?_getD]
  unfold MIDDLE_C MIDI_INPUTS at *
  have hmin : min (64 - a) 128 = 64 - a := by omega
  rw [hmin]
  rcases Nat.lt_or_ge j (64 - a) with hc1 | hc1
  · rw [List.getElem?_append_left (by rw [List.length_replicate]; omega),
      List.getElem?_replicate, if_pos hc1, if_neg (by omega)]
    rfl
  · rcases Nat.lt_or_ge j (64 + a) with hc2 | hc2
    · rw [List.getElem?_append_right (by rw [List.length_replicate]; omega),
        List.length_replicate,
        List.getElem?_append_left (by rw [hrow]; omega),
        if_pos ⟨hc1, hc2⟩, List.getD_eq_getElem?_getD]
    · rw [List.getElem?_append_right (by rw [List.length_replicate]; omega),
        List.length_replicate,
        List.getElem?_append_right (by rw [hrow]; omega), hrow,
        List.getElem?_replicate, if_pos (by omega), if_neg (by omega)]
      rfl

/-- C7: for a roll of cut width held by a `Midi`, `reformat_roll` (what
`save` exports when the cut is set) restores the full 128-pitch width: it
equals the held roll on the window from `MIDDLE_C - notes_above` up to but
excluding `MIDDLE_C + notes_above` and is zero on every column outside;
consequently cutting a full-width roll and reformat-exporting it restores
the data inside the window unchanged and zeros everything else. -/
theorem C7_reformat_roundtrip (m : Midi) (roll : List (List Bool))
    (hroll : m.roll = some roll) (ha : m.notes_above ≤ MIDDLE_C)
    (hw : ∀ row ∈ roll, row.length = 2 * m.notes_above) :
    m.reformat_roll.length = roll.length ∧
    (∀ i, i < roll.length →
      (m.reformat_roll.getD i []).length = MIDI_INPUTS ∧
      ∀ j, j < MIDI_INPUTS →
        (m.reformat_roll.getD i []).getD j false
          = if MIDDLE_C - m.notes_above ≤ j ∧ j < MIDDLE_C + m.notes_above then
              (roll.getD i []).getD (j - (MIDDLE_C - m.notes_above)) false
            else false) ∧
    (∀ orig : List Bool, orig.length = MIDI_INPUTS →
      ∀ j, j < MIDI_INPUTS →
        (writeSlice m.notes_above
            (pySlice ((MIDDLE_C : Int) - m.notes_above)
              ((MIDDLE_C : Int) + m.notes_above) orig)).getD j false
          = if MIDDLE_C - m.notes_above ≤ j ∧ j < MIDDLE_C + m.notes_above then
              orig.getD j false
            else false) := by
  have hre : m.reformat_roll = roll.map (writeSlice m.notes_above) := by
    simp only [Midi.reformat_roll, hroll, Option.getD_some]
  refine ⟨by rw [hre, List.length_map], ?_, ?_⟩
  · intro i hi
    have hmem := getD_mem_of_lt roll i hi
    have hgd : m.reformat_roll.getD i [] = writeSlice m.notes_above (roll.getD i []) := by
      rw [hre, getD_map_of_lt _ roll i hi]
    rw [hgd]
    exact ⟨writeSlice_length _ _ ha (hw _ hmem),
      fun j hj => writeSlice_getD _ _ ha (hw _ hmem) j hj⟩
  · intro orig horig j hj
    have hbl : pyBound orig.length ((MIDDLE_C : Int) - m.notes_above)
        = MIDDLE_C - m.notes_above := by
      rw [horig]; exact writeSlice_bound _ ha
    have hbu : pyBound orig.length ((MIDDLE_C : Int) + m.notes_above)
        = MIDDLE_C + m.notes_above := by
      rw [horig]; unfold pyBound MIDDLE_C MIDI_INPUTS at *
      split <;> omega
    have hslen : (pySlice ((MIDDLE_C : Int) - m.notes_above)
        ((MIDDLE_C : Int) + m.notes_above) orig).length = 2 * m.notes_above := by
      rw [length_pySlice, hbl, hbu]
      unfold MIDDLE_C at *
      omega
    rw [writeSlice_getD _ _ ha hslen j hj]
    split <;> rename_i hcond
    · rw [getD_pySlice _ _ _ _ _ (by rw [hbl, hbu]; unfold MIDDLE_C at *; omega), hbl]
      congr 1
      unfold MIDDLE_C at *
      omega
    · rfl

/-- Witness for C7: `reformat_roll` evaluated on a concrete `Midi` holding
a one-row roll of the cut width two. -/
theorem C7_reformat_roundtrip_witness :
    (⟨24, 2, 1, true, none, some [[true, false]]⟩ : Midi).reformat_roll.length = 1 :=
  (C7_reformat_roundtrip ⟨24, 2, 1, true, none, some [[true, false]]⟩ [[true, false]]
    rfl (by decide) (by decide)).1

/-- C10: every reachable `Midi` satisfies `notes_above = num_pitches / 2`:
the constructor establishes it, `load_np` re-establishes it in the branch
that overwrites `num_pitches` (and touches neither field in the other
branches), and `load_midi` and `augment` never modify either field.
(`vectorise` returns the phrase/label arrays and assigns no field at all,
so it has no `Midi`-valued result to state the invariant of.) -/
theorem C10_notes_above_invariant :
    (∀ np br c, (Midi.init np br c).notes_above = (Midi.init np br c).num_pitches / 2) ∧
    (∀ m : Midi, m.notes_above = m.num_pitches / 2 →
      (∀ roll tempo,
        (m.load_np roll tempo).notes_above = (m.load_np roll tempo).num_pitches / 2) ∧
      (∀ files m', m.load_midi files = .ok m' → m'.notes_above = m'.num_pitches / 2) ∧
      (∀ n v, (m.augment n v).notes_above = (m.augment n v).num_pitches / 2)) := by
  refine ⟨fun np br c => rfl, ?_⟩
  intro m hm
  refine ⟨?_, ?_, ?_⟩
  · intro roll tempo
    simp only [Midi.load_np]
    split
    · exact hm
    · split
      · exact hm
      · rfl
  · intro files m' h
    unfold Midi.load_midi at h
    rcases hl2 : loadLoop m ([], m.tempo) files with e | ⟨rolls, tempo⟩ <;> rw [hl2] at h
    · simp at h
    · replace h : (match mergeRolls m.num_pitches rolls with
          | none => LoadResult.shapeError
          | some extended =>
              LoadResult.ok { m with roll := some extended, tempo := tempo })
            = LoadResult.ok m' := h
      rcases hm2 : mergeRolls m.num_pitches rolls with _ | ext <;> rw [hm2] at h
      · simp at h
      · simp only [LoadResult.ok.injEq] at h
        rw [← h]
        exact hm
  · intro n v
    unfold Midi.augment
    rcases hr : m.roll with _ | roll
    · exact hm
    · exact hm

/-- Witness for C10: the invariant after `load_np` overwrites the pitch
count of a freshly constructed `Midi` with a narrow three-pitch roll. -/
theorem C10_notes_above_invariant_witness :
    ((Midi.init 61 24 true).load_np [[true, false, true]] 120).notes_above
      = ((Midi.init 61 24 true).load_np [[true, false, true]] 120).num_pitches / 2 :=
  (C10_notes_above_invariant.2 (Midi.init 61 24 true) (by decide)).1
    [[true, false, true]] 120

end Mused
